import Mathlib

/-!
Verification development for the USAS-CSV-Auto-Labeling repository.

This file gives a shallow embedding, in Lean 4, of the core text-processing
layer of the repository (`src/usas_csv_auto_labeling/processing_text.py`):

* the validated output record `TaggedText` and its construction-time
  length-invariant check (`check_lists_match`, embedded as `mkTaggedText`);
* the typed attribute retrieval helper `get_spacy_attribute`, over an
  explicit model of Python runtime values (`PyVal` / `PyType`);
* the MWE (multi-word-expression) index resolver of `tag_text._process_text`
  (collection of multi-element membership sets, stable sort by minimum
  covered index, 1-based group-ID assignment with Python list-index
  semantics, including negative-index wrap-around and IndexError);
* the per-unit orchestration `_process_text` and the top-level `tag_text`
  (one unit when no sentence splitter is supplied, one per sentence
  otherwise).

The repository module `usas_csv_auto_labeling/data_utils.py` is not part of
the available sources (only its callers and tests are), so the two helpers
imported from it (`get_all_mwe_token_indexes` and `parse_usas_token_group`)
are modelled from the specification; each such definition carries a doc
comment starting with "Modelled from the spec:".

Python exceptions are modelled with `Except String`: a unit either produces
a full record or an error, never a partial record.
-/

/-- Model of the runtime type tags relevant to `isinstance` checks performed
by `get_spacy_attribute` (`str` for text/lemma/POS attributes, `list` for the
USAS tag and MWE range attributes). -/
inductive PyType where
  | str
  | int
  | list
  | tuple
deriving DecidableEq, Repr

/-- Model of the Python runtime values the token attribute source can hold:
strings, integers, lists, and pairs (the `(start, end)` range tuples). -/
inductive PyVal where
  | str (s : String)
  | int (n : ℤ)
  | list (l : List PyVal)
  | tuple (a b : ℤ)

/-- Runtime type tag of a value, as observed by `isinstance`. -/
def PyVal.typeOf : PyVal → PyType
  | .str _ => .str
  | .int _ => .int
  | .list _ => .list
  | .tuple _ _ => .tuple

/-- Rendering of a type tag inside error messages. Python renders
`type(v)` with surrounding quotes (class str); the quotes are omitted
here, the class name is kept. -/
def PyType.repr : PyType → String
  | .str => "<class str>"
  | .int => "<class int>"
  | .list => "<class list>"
  | .tuple => "<class tuple>"

/-- One USAS semantic tag, mirroring the `USASTag` pydantic model of
`data_utils` as described by the spec data model: a discriminator code plus
polarity counts and boolean markers, all defaulting to absent. -/
structure USASTag where
  tag : String
  number_positive_markers : ℕ := 0
  number_negative_markers : ℕ := 0
  rarity_marker_1 : Bool := false
  rarity_marker_2 : Bool := false
  female : Bool := false
  male : Bool := false
  antecedents : Bool := false
  neuter : Bool := false
  idiom : Bool := false
deriving DecidableEq, Repr

/-- An ordered group of alternative USAS tags for one token position
(alternatives joined by "/" in the source encoding). -/
structure USASTagGroup where
  tags : List USASTag
deriving DecidableEq, Repr

/-- The validated output record of `processing_text.TaggedText`: the text,
its tokens, optional lemmas and POS tags, per-token USAS tag groups and
per-token MWE group-ID sets. -/
structure TaggedText where
  text : String
  tokens : List String
  lemmas : Option (List String)
  pos_tags : Option (List String)
  usas_tags : List (List USASTagGroup)
  mwe_indexes : List (Finset ℕ)
deriving DecidableEq

/-- The USAS-tags and MWE-indexes length checks of `check_lists_match`
(third and fourth checks of the validator). -/
def mkTaggedTextRest (text : String) (tokens : List String)
    (lemmas : Option (List String)) (pos_tags : Option (List String))
    (usas_tags : List (List USASTagGroup)) (mwe_indexes : List (Finset ℕ)) :
    Except String TaggedText :=
  if tokens.length ≠ usas_tags.length then
    .error ("The number of tokens: " ++ toString tokens.length ++
      " and USAS tags must be the same: " ++ toString usas_tags.length)
  else if tokens.length ≠ mwe_indexes.length then
    .error ("The number of tokens: " ++ toString tokens.length ++
      " and MWE indexes must be the same: " ++ toString mwe_indexes.length)
  else .ok ⟨text, tokens, lemmas, pos_tags, usas_tags, mwe_indexes⟩

/-- The POS-tag length check of `check_lists_match` (second check of the
validator), followed by the remaining checks. -/
def mkTaggedTextPos (text : String) (tokens : List String)
    (lemmas : Option (List String)) (pos_tags : Option (List String))
    (usas_tags : List (List USASTagGroup)) (mwe_indexes : List (Finset ℕ)) :
    Except String TaggedText :=
  match pos_tags with
  | some ps =>
    if tokens.length ≠ ps.length then
      .error ("The number of tokens: " ++ toString tokens.length ++
        " and POS tags must be the same: " ++ toString ps.length)
    else mkTaggedTextRest text tokens lemmas pos_tags usas_tags mwe_indexes
  | none => mkTaggedTextRest text tokens lemmas pos_tags usas_tags mwe_indexes

/-- Embedding of `TaggedText` construction together with its
`check_lists_match` model validator: each length check is performed in the
source order and a failing check raises `ValueError` with the source
message (modelled as `Except.error`); only when every check passes is the
record produced. -/
def mkTaggedText (text : String) (tokens : List String)
    (lemmas : Option (List String)) (pos_tags : Option (List String))
    (usas_tags : List (List USASTagGroup)) (mwe_indexes : List (Finset ℕ)) :
    Except String TaggedText :=
  match lemmas with
  | some ls =>
    if tokens.length ≠ ls.length then
      .error ("The number of tokens: " ++ toString tokens.length ++
        " and lemmas must be the same: " ++ toString ls.length)
    else mkTaggedTextPos text tokens lemmas pos_tags usas_tags mwe_indexes
  | none => mkTaggedTextPos text tokens lemmas pos_tags usas_tags mwe_indexes

/-- Token indexes covered by one half-open MWE range `[start, end)`. -/
def expandRange (p : ℤ × ℤ) : Finset ℤ := Finset.Ico p.1 p.2

/-- Modelled from the spec: `data_utils.get_all_mwe_token_indexes` is not in
the available sources; per the spec it expands a per-token list of half-open
ranges into the flat set of token indexes covered, i.e. the union of
`[start, end)` over all the ranges (the token's membership set). -/
def get_all_mwe_token_indexes (rs : List (ℤ × ℤ)) : Finset ℤ :=
  rs.foldr (fun p acc => expandRange p ∪ acc) ∅

/-- Total model of Python's `min` on a set of integers: the minimum when the
set is nonempty (the only situation in which the source calls it), `0`
otherwise. -/
def pyMin (s : Finset ℤ) : ℤ := WithBot.unbot' 0 s.min

/-- Model of Python `set.add` observed through iteration: the element is
appended when absent, and the container keeps one copy of each element in
first-insertion order. -/
def pyInsert {α : Type} [DecidableEq α] (l : List α) (x : α) : List α :=
  if x ∈ l then l else l ++ [x]

/-- The `all_mwe_token_indexes_with_min_value` set built by the token loop of
`_process_text`: for each token's membership set with more than one element,
the pair of the set and its minimum is added; duplicates collapse. The list
records the distinct pairs in first-insertion (token) order; theorems that
depend on the set's unspecified iteration order quantify over permutations
of this list. -/
def collectFromExpansions (es : List (Finset ℤ)) : List (Finset ℤ × ℤ) :=
  es.foldl (fun acc s => if 1 < s.card then pyInsert acc (s, pyMin s) else acc) []

/-- The distinct multi-element membership sets (paired with their minima)
arising from a full per-token range-list input. -/
def collectMweSets (ranges : List (List (ℤ × ℤ))) : List (Finset ℤ × ℤ) :=
  collectFromExpansions (ranges.map get_all_mwe_token_indexes)

/-- Stable insertion of one (membership set, minimum) pair into a list sorted
by minimum: the new entry goes before the first entry with a key it does not
exceed, so equal keys keep their relative order. -/
def insertByMin (x : Finset ℤ × ℤ) : List (Finset ℤ × ℤ) → List (Finset ℤ × ℤ)
  | [] => [x]
  | y :: ys => if x.2 ≤ y.2 then x :: y :: ys else y :: insertByMin x ys

/-- Model of `sorted(..., key=lambda x: x[1])` on line 227 of
`processing_text.py`: a stable sort of the collected pairs by their second
component (the minimum covered token index). -/
def sortByMin : List (Finset ℤ × ℤ) → List (Finset ℤ × ℤ)
  | [] => []
  | x :: xs => insertByMin x (sortByMin xs)

/-- Python list-index resolution for reading `mwe_indexes[i]`: an index in
`[0, n)` is used as is, an index in `[-n, 0)` counts from the end of the
list, anything else raises IndexError (modelled by `none`). -/
def pyResolveIndex (n : ℕ) (i : ℤ) : Option ℕ :=
  if 0 ≤ i ∧ i < (n : ℤ) then some i.toNat
  else if 0 ≤ i + (n : ℤ) ∧ i < 0 then some (i + (n : ℤ)).toNat
  else none

/-- Replace the set at position `j` of the output list by the same set with
`gid` inserted (the effect of `mwe_indexes[j].add(gid)` once the index has
been resolved). Positions past the end are left untouched (never reached:
the resolved index is always in range). -/
def updateAt (l : List (Finset ℕ)) (j : ℕ) (gid : ℕ) : List (Finset ℕ) :=
  match l, j with
  | [], _ => []
  | s :: rest, 0 => insert gid s :: rest
  | s :: rest, Nat.succ j => s :: updateAt rest j gid

/-- The inner loop of the ID-assignment step: add group ID `gid` to the
output entry of every member index in `ms`, with Python list-index
semantics; an unresolvable index raises IndexError. -/
def addGroupId (gid : ℕ) (ms : List ℤ) (out : List (Finset ℕ)) :
    Except String (List (Finset ℕ)) :=
  match ms with
  | [] => .ok out
  | i :: rest =>
    match pyResolveIndex out.length i with
    | some j => addGroupId gid rest (updateAt out j gid)
    | none => .error "IndexError: list index out of range"

/-- Insertion of an integer into an ascending list, keeping it ascending. -/
def sortedInsertZ (i : ℤ) : List ℤ → List ℤ
  | [] => [i]
  | j :: js => if i ≤ j then i :: j :: js else j :: sortedInsertZ i js

/-- Two sorted insertions commute, so a multiset can be folded into a
canonical ascending enumeration. -/
theorem sortedInsertZ_comm (i j : ℤ) (l : List ℤ) :
    sortedInsertZ i (sortedInsertZ j l) = sortedInsertZ j (sortedInsertZ i l) := by
  induction l with
  | nil =>
    by_cases h1 : i ≤ j <;> by_cases h2 : j ≤ i <;>
      simp [sortedInsertZ, h1, h2] <;> omega
  | cons a l ih =>
    by_cases h1 : i ≤ a <;> by_cases h2 : j ≤ a <;> by_cases h3 : i ≤ j <;>
      by_cases h4 : j ≤ i <;>
      simp [sortedInsertZ, h1, h2, h3, h4, ih] <;> omega

instance : LeftCommutative sortedInsertZ := ⟨sortedInsertZ_comm⟩

/-- Ascending enumeration of a finite set of integers, used to walk a
membership set (iteration order over the frozenset does not affect the
resolver's result). -/
def finsetAscList (s : Finset ℤ) : List ℤ :=
  Multiset.foldr sortedInsertZ [] s.val

/-- The outer loop of the ID-assignment step (`enumerate(..., start=1)` on
lines 228-230): consecutive group IDs starting at `gid` are handed to the
sorted membership sets, and each ID is added to the entries of the tokens
the set covers. The iteration order inside one membership set (a frozenset
in the source) does not matter for the result, so the set is walked in
ascending order. -/
def assignGroupIds (gid : ℕ) (groups : List (Finset ℤ × ℤ))
    (out : List (Finset ℕ)) : Except String (List (Finset ℕ)) :=
  match groups with
  | [] => .ok out
  | (s, _) :: rest =>
    match addGroupId gid (finsetAscList s) out with
    | .ok out' => assignGroupIds (gid + 1) rest out'
    | .error e => .error e

/-- The ID-assignment phase of the resolver, starting from a given
enumeration `coll` of the collected membership-set pairs and an output list
of `n` empty sets (one per token). -/
def resolveWith (coll : List (Finset ℤ × ℤ)) (n : ℕ) :
    Except String (List (Finset ℕ)) :=
  assignGroupIds 1 (sortByMin coll) (List.replicate n ∅)

/-- The complete MWE index resolver of `_process_text` (lines 195-230),
as a function of the per-token raw range lists: expand each token's ranges
into its membership set, collect the distinct multi-element sets with their
minima, sort them by minimum, and assign 1-based group IDs to the covered
token entries. The membership-set collection is enumerated in
first-insertion order. -/
def resolveMwe (ranges : List (List (ℤ × ℤ))) :
    Except String (List (Finset ℕ)) :=
  resolveWith (collectMweSets ranges) ranges.length

/-- Position of the first occurrence of an entry in a list of collected
pairs (the zero-based rank that `enumerate` walks through). -/
def idxOfP (x : Finset ℤ × ℤ) : List (Finset ℤ × ℤ) → ℕ
  | [] => 0
  | y :: ys => if y = x then 0 else idxOfP x ys + 1

/-- Group ID that `enumerate(..., start=1)` hands to a collected pair: one
plus its position in the sorted collection. -/
def groupId (ranges : List (List (ℤ × ℤ))) (p : Finset ℤ × ℤ) : ℕ :=
  idxOfP p (sortByMin (collectMweSets ranges)) + 1

deriving instance DecidableEq for Except

/-- The length invariant of `TaggedText`: tokens, USAS tags and MWE indexes
agree in length, and lemmas / POS tags agree with the tokens whenever
present. -/
def LengthsMatch (tokens : List String) (lemmas : Option (List String))
    (pos_tags : Option (List String)) (usas_tags : List (List USASTagGroup))
    (mwe_indexes : List (Finset ℕ)) : Prop :=
  tokens.length = usas_tags.length ∧ tokens.length = mwe_indexes.length ∧
  (∀ ls, lemmas = some ls → tokens.length = ls.length) ∧
  (∀ ps, pos_tags = some ps → tokens.length = ps.length)

/-- Marker characters that may trail a USAS tag code. -/
def isMarkerChar (c : Char) : Bool :=
  c == '+' || c == '-' || c == '%' || c == '@' || c == 'f' || c == 'm' ||
    c == 'c' || c == 'n' || c == 'i'

/-- Effect of one trailing marker character on a parsed tag. -/
def applyMarker (t : USASTag) (c : Char) : USASTag :=
  if c == '+' then { t with number_positive_markers := t.number_positive_markers + 1 }
  else if c == '-' then { t with number_negative_markers := t.number_negative_markers + 1 }
  else if c == '%' then { t with rarity_marker_1 := true }
  else if c == '@' then { t with rarity_marker_2 := true }
  else if c == 'f' then { t with female := true }
  else if c == 'm' then { t with male := true }
  else if c == 'c' then { t with antecedents := true }
  else if c == 'n' then { t with neuter := true }
  else { t with idiom := true }

/-- Characters allowed in a USAS discriminator code (capital letters, digits
and dots, as in A1.1.1 or Z99). -/
def isCodeChar (c : Char) : Bool := c.isUpper || c.isDigit || c == '.'

/-- Modelled from the spec: the Tag Parser of `data_utils` is not in the
available sources. Per the spec, the sentinel PUNCT maps to a tag with all
markers absent; otherwise the string is a discriminator code followed by
zero or more trailing marker characters (polarity markers increment the
counts, the other markers set their booleans); an empty or ill-formed
discriminator is a parse failure. -/
def parse_usas_tag (s : String) : Except String USASTag :=
  if s = "PUNCT" then .ok { tag := "PUNCT" }
  else
    let cs := s.toList
    let code := cs.takeWhile isCodeChar
    let markers := cs.dropWhile isCodeChar
    if code.isEmpty then .error ("TagParseError: " ++ s)
    else if ¬ (code.headD 'A').isUpper then .error ("TagParseError: " ++ s)
    else if ¬ markers.all isMarkerChar then .error ("TagParseError: " ++ s)
    else .ok (markers.foldl applyMarker { tag := String.mk code })

/-- Splitting of a character list at every occurrence of a separator. -/
def splitChars (sep : Char) : List Char → List (List Char)
  | [] => [[]]
  | c :: cs =>
    if c = sep then [] :: splitChars sep cs
    else
      match splitChars sep cs with
      | g :: gs => (c :: g) :: gs
      | [] => [[c]]

/-- Splitting of a string at every occurrence of a separator character. -/
def splitStr (sep : Char) (s : String) : List String :=
  (splitChars sep s.toList).map String.mk

/-- Modelled from the spec: the Tag Group Parser
(`data_utils.parse_usas_token_group`) is not in the available sources. Per
the spec it splits the whitespace-joined input into raw group strings, each
raw group on "/" into alternative tag strings, parses every alternative and
keeps the input order; the empty input yields no groups. -/
def parse_usas_token_group (s : String) : Except String (List USASTagGroup) :=
  let raw_groups := (splitStr ' ' s).filter (fun g => !g.isEmpty)
  raw_groups.mapM (fun g =>
    Except.map (fun ts => ⟨ts⟩) ((splitStr '/' g).mapM parse_usas_tag))

/-- Model of one spaCy token as seen by `get_spacy_attribute`: a bundle of
plain attributes and of custom attributes (the ones reached through the
underscore object when the configured name starts with the custom-attribute
marker). -/
structure PyToken where
  attrs : List (String × PyVal)
  custom : List (String × PyVal)

/-- The validation error message raised by `get_spacy_attribute` on an
`isinstance` failure: it names the attribute, the expected type and the
actual type. -/
def typeErrorMsg (attribute_name : String) (expected actual : PyType) : String :=
  "Expected " ++ attribute_name ++ " to be of type " ++ PyType.repr expected ++
    ", but got " ++ PyType.repr actual

/-- The attribute name used after the custom-marker check of
`get_spacy_attribute`: a name with the custom marker has its first two
characters stripped. -/
def strippedName (attribute_name : String) : String :=
  if attribute_name.take 2 == "_." then attribute_name.drop 2 else attribute_name

/-- The attribute lookup of `get_spacy_attribute`: a name carrying the
custom marker is looked up (stripped) on the underscore object, any other
name directly on the token. -/
def attributeLookup (spacy_object : PyToken) (attribute_name : String) :
    Option PyVal :=
  if attribute_name.take 2 == "_." then
    spacy_object.custom.lookup (attribute_name.drop 2)
  else spacy_object.attrs.lookup attribute_name

/-- Embedding of `tag_text.get_spacy_attribute` (lines 150-184): a name
starting with the custom marker is stripped and looked up on the underscore
object, otherwise the plain attribute is looked up; a missing attribute
raises AttributeError (as `getattr` does), and a value failing the
`isinstance` check against the expected type raises `ValueError` with the
descriptive message naming the attribute and both types. -/
def get_spacy_attribute (spacy_object : PyToken) (attribute_name : String)
    (expected_type : PyType) : Except String PyVal :=
  match attributeLookup spacy_object attribute_name with
  | none => .error ("AttributeError: " ++ strippedName attribute_name)
  | some v =>
    if v.typeOf = expected_type then .ok v
    else .error (typeErrorMsg (strippedName attribute_name) expected_type v.typeOf)

/-- String-typed attribute retrieval (text, lemma, POS); the value behind a
successful str-typed retrieval is a string. -/
def getStrAttribute (tok : PyToken) (name : String) : Except String String :=
  match get_spacy_attribute tok name .str with
  | .ok (.str s) => .ok s
  | .ok _ => .error "unreachable: isinstance str"
  | .error e => .error e

/-- List-typed attribute retrieval (USAS tags, MWE ranges). -/
def getListAttribute (tok : PyToken) (name : String) : Except String (List PyVal) :=
  match get_spacy_attribute tok name .list with
  | .ok (.list l) => .ok l
  | .ok _ => .error "unreachable: isinstance list"
  | .error e => .error e

/-- Conversion of the retrieved USAS attribute list to strings, the effect
of the space-join on line 211 (a non-string element raises TypeError). -/
def asStrList : List PyVal → Except String (List String)
  | [] => .ok []
  | .str s :: rest => Except.map (fun l => s :: l) (asStrList rest)
  | _ :: _ => .error "TypeError: sequence item: expected str instance"

/-- Conversion of the retrieved MWE attribute list to integer pairs, as
consumed by `get_all_mwe_token_indexes` (a non-pair element raises
TypeError). -/
def asRangeList : List PyVal → Except String (List (ℤ × ℤ))
  | [] => .ok []
  | .tuple a b :: rest => Except.map (fun l => (a, b) :: l) (asRangeList rest)
  | _ :: _ => .error "TypeError: expected a pair of int"

/-- The extension-name configuration of `tag_text`, with the source's
defaults. -/
structure TagTextConfig where
  lemma_token_extension : Option String := none
  pos_token_extension : Option String := none
  token_text_extension : String := "text"
  usas_token_extension : String := "_.pymusas_tags"
  mwe_token_extension : String := "_.pymusas_mwe_indexes"

/-- What the token loop of `_process_text` produces for one token: the
token text, the optional lemma and POS tag, the parsed USAS tag groups and
the expanded MWE membership set. -/
structure TokenResult where
  token_text : String
  lemmaVal : Option String
  posVal : Option String
  usas_groups : List USASTagGroup
  expansion : Finset ℤ

/-- Retrieval of an optional string attribute (lemma or POS tag): skipped
when the extension is not configured. -/
def getOptionalStr (token : PyToken) (ext : Option String) :
    Except String (Option String) :=
  match ext with
  | some nm => Except.map some (getStrAttribute token nm)
  | none => .ok none

/-- One iteration of the token loop of `_process_text` (lines 197-222):
retrieve the token text, the lemma and POS tag when configured, the USAS tag
list (joined and parsed into groups) and the MWE range list (expanded into
the membership set). Any failure aborts the unit. -/
def processToken (cfg : TagTextConfig) (token : PyToken) :
    Except String TokenResult := do
  let token_text ← getStrAttribute token cfg.token_text_extension
  let lemmaVal ← getOptionalStr token cfg.lemma_token_extension
  let posVal ← getOptionalStr token cfg.pos_token_extension
  let usas_raw ← getListAttribute token cfg.usas_token_extension
  let usas_strs ← asStrList usas_raw
  let token_usas_tag_groups ← parse_usas_token_group (String.intercalate " " usas_strs)
  let mwe_raw ← getListAttribute token cfg.mwe_token_extension
  let token_mwe_indexes_range ← asRangeList mwe_raw
  .ok ⟨token_text, lemmaVal, posVal, token_usas_tag_groups,
    get_all_mwe_token_indexes token_mwe_indexes_range⟩

/-- The whole token loop, in token order; the first failing token aborts the
unit. -/
def processTokens (cfg : TagTextConfig) : List PyToken → Except String (List TokenResult)
  | [] => .ok []
  | t :: ts =>
    match processToken cfg t with
    | .error e => .error e
    | .ok r =>
      match processTokens cfg ts with
      | .error e => .error e
      | .ok rs => .ok (r :: rs)

/-- Embedding of `tag_text._process_text` (lines 187-245): run the token
loop, resolve the MWE group IDs from the collected membership sets, and
construct the validated record (lemmas and POS tags are kept only when their
extensions are configured). -/
def _process_text (cfg : TagTextConfig) (tagger : String → List PyToken)
    (text_to_process : String) : Except String TaggedText :=
  match processTokens cfg (tagger text_to_process) with
  | .error e => .error e
  | .ok results =>
    let tokens := results.map TokenResult.token_text
    let lemmas := if cfg.lemma_token_extension.isSome then
      some (results.filterMap TokenResult.lemmaVal) else none
    let pos_tags := if cfg.pos_token_extension.isSome then
      some (results.filterMap TokenResult.posVal) else none
    let usas_tag_groups := results.map TokenResult.usas_groups
    let coll := collectFromExpansions (results.map TokenResult.expansion)
    match assignGroupIds 1 (sortByMin coll) (List.replicate results.length ∅) with
    | .error e => .error e
    | .ok mwe_indexes =>
      mkTaggedText text_to_process tokens lemmas pos_tags usas_tag_groups mwe_indexes

/-- Embedding of the top-level `tag_text` (lines 249-253): with a sentence
splitter every sentence becomes one unit, in the splitter's output order;
without one the whole text is a single unit. Each entry is the outcome of
processing one unit (the generator yields the record, or raises). -/
def tag_text (cfg : TagTextConfig) (tagger : String → List PyToken)
    (sentence_splitter : Option (String → List String)) (text : String) :
    List (Except String TaggedText) :=
  match sentence_splitter with
  | some splitter => (splitter text).map (_process_text cfg tagger)
  | none => [_process_text cfg tagger text]

/-- All collected membership sets have pairwise distinct minima, i.e. there
are no ties in the sort key. -/
def DistinctMins (l : List (Finset ℤ × ℤ)) : Prop :=
  (l.map Prod.snd).Nodup

/-- Every attribute the configuration asks `_process_text` to retrieve for
this token is present and passes its `isinstance` type check. -/
def AttrsWellTyped (cfg : TagTextConfig) (tok : PyToken) : Prop :=
  (∃ s, get_spacy_attribute tok cfg.token_text_extension .str = .ok s) ∧
  (∀ nm, cfg.lemma_token_extension = some nm →
    ∃ s, get_spacy_attribute tok nm .str = .ok s) ∧
  (∀ nm, cfg.pos_token_extension = some nm →
    ∃ s, get_spacy_attribute tok nm .str = .ok s) ∧
  (∃ v, get_spacy_attribute tok cfg.usas_token_extension .list = .ok v) ∧
  (∃ v, get_spacy_attribute tok cfg.mwe_token_extension .list = .ok v)

/-- C1: TaggedText construction succeeds exactly when the tokens, USAS tags
and MWE indexes have equal lengths and any present lemmas or POS tags match
the token count; a successful construction returns the record with the given
fields, and any length mismatch yields a validation error and no record. -/
theorem mkTaggedText_ok_iff (text : String) (tokens : List String)
    (lemmas : Option (List String)) (pos_tags : Option (List String))
    (usas_tags : List (List USASTagGroup)) (mwe_indexes : List (Finset ℕ)) :
    ((∃ r, mkTaggedText text tokens lemmas pos_tags usas_tags mwe_indexes = .ok r) ↔
       LengthsMatch tokens lemmas pos_tags usas_tags mwe_indexes) ∧
    (∀ r, mkTaggedText text tokens lemmas pos_tags usas_tags mwe_indexes = .ok r →
       r = ⟨text, tokens, lemmas, pos_tags, usas_tags, mwe_indexes⟩) ∧
    (¬ LengthsMatch tokens lemmas pos_tags usas_tags mwe_indexes →
       ∃ msg, mkTaggedText text tokens lemmas pos_tags usas_tags mwe_indexes = .error msg) := by
  cases lemmas <;> cases pos_tags <;>
    simp [mkTaggedText, mkTaggedTextPos, mkTaggedTextRest, LengthsMatch] <;>
    split_ifs <;> simp_all

/-- Witness for C1 at concrete inputs: a three-token record with lemmas and
without POS tags constructs successfully, and a one-token input with no USAS
tags fails with a validation error. -/
theorem mkTaggedText_ok_iff_witness :
    (∃ r, mkTaggedText "On the river" ["On", "the", "river"]
      (some ["on", "the", "river"]) none [[], [], []] [∅, ∅, ∅] = .ok r) ∧
    (∃ msg, mkTaggedText "x" ["x"] none none [] [] = .error msg) :=
  ⟨((mkTaggedText_ok_iff "On the river" ["On", "the", "river"]
      (some ["on", "the", "river"]) none [[], [], []] [∅, ∅, ∅]).1).mpr
    ⟨rfl, rfl, fun _ h => by cases h; rfl, fun _ h => by cases h⟩,
   (mkTaggedText_ok_iff "x" ["x"] none none [] []).2.2
    (fun hlm => by simp [LengthsMatch] at hlm)⟩

/-- C2: the concrete round-trip input of the test suite. Four tokens with
raw MWE range lists resolve to the MWE index sets with token 1 excluded: its
sole range covers only itself, while tokens 0, 2 and 3 share the membership
set covering indexes 0, 2 and 3 and receive group ID 1. -/
theorem resolveMwe_river_nile :
    resolveMwe [[(0, 1), (2, 4)], [(1, 2)], [(0, 1), (2, 4)], [(0, 1), (2, 4)]] =
      .ok [{1}, ∅, {1}, {1}] := by rfl

theorem mem_get_all_mwe_token_indexes (rs : List (ℤ × ℤ)) (i : ℤ) :
    i ∈ get_all_mwe_token_indexes rs ↔ ∃ p ∈ rs, p.1 ≤ i ∧ i < p.2 := by
  induction rs with
  | nil => simp [get_all_mwe_token_indexes]
  | cons p rs ih =>
    simp [get_all_mwe_token_indexes, expandRange, Finset.mem_Ico] at ih ⊢
    rw [ih]

theorem mem_sortedInsertZ (a i : ℤ) (l : List ℤ) :
    a ∈ sortedInsertZ i l ↔ a = i ∨ a ∈ l := by
  induction l with
  | nil => simp [sortedInsertZ]
  | cons j js ih =>
    by_cases h : i ≤ j
    · simp [sortedInsertZ, h]
    · simp [sortedInsertZ, h, ih]
      tauto

theorem mem_finsetAscList (s : Finset ℤ) (i : ℤ) :
    i ∈ finsetAscList s ↔ i ∈ s := by
  rw [Finset.mem_def, finsetAscList]
  induction s.val using Multiset.induction_on with
  | empty => simp [Multiset.foldr_zero]
  | cons a m ih => simp [Multiset.foldr_cons, mem_sortedInsertZ, ih]

theorem mem_pyInsert {α : Type} [DecidableEq α] (l : List α) (x y : α) :
    x ∈ pyInsert l y ↔ x = y ∨ x ∈ l := by
  by_cases h : y ∈ l
  · simp [pyInsert, h]
    intro hx; subst hx; exact h
  · simp [pyInsert, h]
    tauto

theorem pyInsert_nodup {α : Type} [DecidableEq α] (l : List α) (y : α)
    (h : l.Nodup) : (pyInsert l y).Nodup := by
  by_cases hy : y ∈ l
  · simpa [pyInsert, hy] using h
  · simp [pyInsert, hy, List.nodup_append, h]

theorem mem_collect_aux (es : List (Finset ℤ)) (acc : List (Finset ℤ × ℤ))
    (S : Finset ℤ) (m : ℤ) :
    (S, m) ∈ es.foldl
        (fun acc s => if 1 < s.card then pyInsert acc (s, pyMin s) else acc) acc ↔
      (S, m) ∈ acc ∨ (S ∈ es ∧ 1 < S.card ∧ m = pyMin S) := by
  induction es generalizing acc with
  | nil => simp
  | cons s es ih =>
    rw [List.foldl_cons, ih]
    by_cases h : 1 < s.card
    · rw [if_pos h, mem_pyInsert]
      constructor
      · rintro ((heq | hacc) | ⟨hS, hc, hm⟩)
        · obtain ⟨rfl, rfl⟩ := Prod.mk.injEq .. ▸ heq
          exact Or.inr ⟨List.mem_cons_self _ _, h, rfl⟩
        · exact Or.inl hacc
        · exact Or.inr ⟨List.mem_cons_of_mem _ hS, hc, hm⟩
      · rintro (hacc | ⟨hS, hc, hm⟩)
        · exact Or.inl (Or.inr hacc)
        · rcases List.mem_cons.mp hS with rfl | hS
          · exact Or.inl (Or.inl (by rw [hm]))
          · exact Or.inr ⟨hS, hc, hm⟩
    · rw [if_neg h]
      constructor
      · rintro (hacc | ⟨hS, hc, hm⟩)
        · exact Or.inl hacc
        · exact Or.inr ⟨List.mem_cons_of_mem _ hS, hc, hm⟩
      · rintro (hacc | ⟨hS, hc, hm⟩)
        · exact Or.inl hacc
        · rcases List.mem_cons.mp hS with rfl | hS
          · exact absurd hc h
          · exact Or.inr ⟨hS, hc, hm⟩

theorem mem_collectFromExpansions (es : List (Finset ℤ)) (S : Finset ℤ) (m : ℤ) :
    (S, m) ∈ collectFromExpansions es ↔
      S ∈ es ∧ 1 < S.card ∧ m = pyMin S := by
  rw [collectFromExpansions, mem_collect_aux]
  simp

theorem collect_aux_nodup (es : List (Finset ℤ)) (acc : List (Finset ℤ × ℤ))
    (h : acc.Nodup) :
    (es.foldl
        (fun acc s => if 1 < s.card then pyInsert acc (s, pyMin s) else acc)
        acc).Nodup := by
  induction es generalizing acc with
  | nil => simpa
  | cons s es ih =>
    rw [List.foldl_cons]
    by_cases hc : 1 < s.card
    · rw [if_pos hc]; exact ih _ (pyInsert_nodup _ _ h)
    · rw [if_neg hc]; exact ih _ h

theorem collectFromExpansions_nodup (es : List (Finset ℤ)) :
    (collectFromExpansions es).Nodup :=
  collect_aux_nodup es [] List.nodup_nil

theorem insertByMin_perm (x : Finset ℤ × ℤ) (l : List (Finset ℤ × ℤ)) :
    List.Perm (insertByMin x l) (x :: l) := by
  induction l with
  | nil => exact List.Perm.refl _
  | cons y ys ih =>
    by_cases h : x.2 ≤ y.2
    · simp [insertByMin, h]
    · simp only [insertByMin, if_neg h]
      exact (ih.cons y).trans (List.Perm.swap x y ys)

theorem sortByMin_perm (l : List (Finset ℤ × ℤ)) :
    List.Perm (sortByMin l) l := by
  induction l with
  | nil => exact List.Perm.refl _
  | cons x xs ih => exact (insertByMin_perm x _).trans (ih.cons x)

theorem insertByMin_pairwise (x : Finset ℤ × ℤ) (l : List (Finset ℤ × ℤ))
    (h : l.Pairwise (fun a b => a.2 ≤ b.2)) :
    (insertByMin x l).Pairwise (fun a b => a.2 ≤ b.2) := by
  induction l with
  | nil => simp [insertByMin]
  | cons y ys ih =>
    rcases List.pairwise_cons.mp h with ⟨hy, hys⟩
    by_cases hxy : x.2 ≤ y.2
    · rw [insertByMin, if_pos hxy]
      refine List.pairwise_cons.mpr ⟨?_, h⟩
      intro b hb
      rcases List.mem_cons.mp hb with rfl | hb
      · exact hxy
      · exact le_trans hxy (hy b hb)
    · rw [insertByMin, if_neg hxy]
      refine List.pairwise_cons.mpr ⟨?_, ih hys⟩
      intro b hb
      rcases List.mem_cons.mp ((insertByMin_perm x ys).mem_iff.mp hb) with rfl | hb
      · exact le_of_not_le hxy
      · exact hy b hb

theorem sortByMin_pairwise (l : List (Finset ℤ × ℤ)) :
    (sortByMin l).Pairwise (fun a b => a.2 ≤ b.2) := by
  induction l with
  | nil => simp [sortByMin]
  | cons x xs ih => exact insertByMin_pairwise x _ ih

theorem idxOfP_lt_of_key_lt (l : List (Finset ℤ × ℤ))
    (hs : l.Pairwise (fun a b => a.2 ≤ b.2)) (x y : Finset ℤ × ℤ)
    (hx : x ∈ l) (hy : y ∈ l) (hlt : x.2 < y.2) :
    idxOfP x l < idxOfP y l := by
  induction l with
  | nil => cases hx
  | cons a l ih =>
    rcases List.pairwise_cons.mp hs with ⟨ha, hl⟩
    rcases List.mem_cons.mp hy with rfl | hy
    · rcases List.mem_cons.mp hx with rfl | hx
      · exact absurd hlt (lt_irrefl _)
      · exact absurd hlt (not_lt.mpr (ha x hx))
    · have hya : a ≠ y := by
        intro he; subst he
        rcases List.mem_cons.mp hx with rfl | hx
        · exact absurd hlt (lt_irrefl _)
        · exact absurd hlt (not_lt.mpr (ha x hx))
      rcases List.mem_cons.mp hx with rfl | hx
      · simp [idxOfP, hya]
      · by_cases hxa : a = x
        · simp [idxOfP, hxa, hya, if_neg (hxa ▸ hya : x ≠ y)]
        · simp only [idxOfP, if_neg hxa, if_neg hya]
          exact Nat.succ_lt_succ (ih hl hx hy)

theorem updateAt_length (l : List (Finset ℕ)) (j g : ℕ) :
    (updateAt l j g).length = l.length := by
  induction l generalizing j with
  | nil => rfl
  | cons s rest ih =>
    cases j with
    | zero => rfl
    | succ j => simp [updateAt, ih]

theorem getD_updateAt_self (l : List (Finset ℕ)) (j g : ℕ) (h : j < l.length) :
    (updateAt l j g).getD j ∅ = insert g (l.getD j ∅) := by
  induction l generalizing j with
  | nil => simp at h
  | cons s rest ih =>
    cases j with
    | zero => rfl
    | succ j =>
      simp only [updateAt, List.getD_cons_succ]
      exact ih j (by simpa using h)

theorem getD_updateAt_ne (l : List (Finset ℕ)) (j k g : ℕ) (h : j ≠ k) :
    (updateAt l j g).getD k ∅ = l.getD k ∅ := by
  induction l generalizing j k with
  | nil => rfl
  | cons s rest ih =>
    cases j with
    | zero =>
      cases k with
      | zero => exact absurd rfl h
      | succ k => rfl
    | succ j =>
      cases k with
      | zero => rfl
      | succ k =>
        simp only [updateAt, List.getD_cons_succ]
        exact ih j k (fun he => h (by rw [he]))

theorem pyResolveIndex_lt (n : ℕ) (i : ℤ) (j : ℕ)
    (h : pyResolveIndex n i = some j) : j < n := by
  simp only [pyResolveIndex] at h
  split_ifs at h with h1 h2 <;> injection h with h <;> omega

theorem addGroupId_length (g : ℕ) (ms : List ℤ) (out out' : List (Finset ℕ))
    (h : addGroupId g ms out = .ok out') : out'.length = out.length := by
  induction ms generalizing out with
  | nil =>
    simp only [addGroupId] at h
    injection h with h
    rw [h]
  | cons i rest ih =>
    simp only [addGroupId] at h
    cases hri : pyResolveIndex out.length i with
    | none => rw [hri] at h; cases h
    | some j =>
      rw [hri] at h
      rw [ih _ h, updateAt_length]

theorem addGroupId_ok_iff (g : ℕ) (ms : List ℤ) (out : List (Finset ℕ)) :
    (∃ out', addGroupId g ms out = .ok out') ↔
      ∀ i ∈ ms, (pyResolveIndex out.length i).isSome := by
  induction ms generalizing out with
  | nil => simp [addGroupId]
  | cons i rest ih =>
    simp only [addGroupId]
    cases hri : pyResolveIndex out.length i with
    | none =>
      constructor
      · rintro ⟨out', h⟩; cases h
      · intro hall
        have := hall i (List.mem_cons_self i rest)
        rw [hri] at this
        cases this
    | some j =>
      rw [ih, updateAt_length]
      constructor
      · intro hrest i' hi'
        rcases List.mem_cons.mp hi' with rfl | hi'
        · rw [hri]; rfl
        · exact hrest i' hi'
      · intro hall i' hi'
        exact hall i' (List.mem_cons_of_mem _ hi')

theorem mem_addGroupId (g : ℕ) (ms : List ℤ) (out out' : List (Finset ℕ))
    (h : addGroupId g ms out = .ok out') (k a : ℕ) :
    a ∈ out'.getD k ∅ ↔ a ∈ out.getD k ∅ ∨
      (a = g ∧ ∃ i ∈ ms, pyResolveIndex out.length i = some k) := by
  induction ms generalizing out with
  | nil =>
    simp only [addGroupId] at h
    injection h with h
    subst h
    simp
  | cons i rest ih =>
    simp only [addGroupId] at h
    cases hri : pyResolveIndex out.length i with
    | none => rw [hri] at h; cases h
    | some j =>
      rw [hri] at h
      rw [ih _ h, updateAt_length]
      by_cases hjk : j = k
      · subst hjk
        rw [getD_updateAt_self out j g (pyResolveIndex_lt _ _ _ hri)]
        simp only [Finset.mem_insert, List.mem_cons]
        constructor
        · rintro ((rfl | ha) | ⟨rfl, i', hi', hres⟩)
          · exact Or.inr ⟨rfl, i, Or.inl rfl, hri⟩
          · exact Or.inl ha
          · exact Or.inr ⟨rfl, i', Or.inr hi', hres⟩
        · rintro (ha | ⟨rfl, i', (rfl | hi'), hres⟩)
          · exact Or.inl (Or.inr ha)
          · exact Or.inl (Or.inl rfl)
          · exact Or.inr ⟨rfl, i', hi', hres⟩
      · rw [getD_updateAt_ne out j k g hjk]
        simp only [List.mem_cons]
        constructor
        · rintro (ha | ⟨rfl, i', hi', hres⟩)
          · exact Or.inl ha
          · exact Or.inr ⟨rfl, i', Or.inr hi', hres⟩
        · rintro (ha | ⟨rfl, i', (rfl | hi'), hres⟩)
          · exact Or.inl ha
          · rw [hri] at hres
            exact absurd (Option.some.inj hres) hjk
          · exact Or.inr ⟨rfl, i', hi', hres⟩

theorem assignGroupIds_length (g0 : ℕ) (groups : List (Finset ℤ × ℤ))
    (out out' : List (Finset ℕ))
    (h : assignGroupIds g0 groups out = .ok out') : out'.length = out.length := by
  induction groups generalizing g0 out with
  | nil =>
    simp only [assignGroupIds] at h
    injection h with h
    rw [h]
  | cons p rest ih =>
    obtain ⟨s, m⟩ := p
    simp only [assignGroupIds] at h
    cases hag : addGroupId g0 (finsetAscList s) out with
    | error e => rw [hag] at h; cases h
    | ok out₁ =>
      rw [hag] at h
      rw [ih _ _ h, addGroupId_length _ _ _ _ hag]

theorem assignGroupIds_ok_iff (g0 : ℕ) (groups : List (Finset ℤ × ℤ))
    (out : List (Finset ℕ)) :
    (∃ out', assignGroupIds g0 groups out = .ok out') ↔
      ∀ p ∈ groups, ∀ i ∈ p.1, (pyResolveIndex out.length i).isSome := by
  induction groups generalizing g0 out with
  | nil => simp [assignGroupIds]
  | cons p rest ih =>
    obtain ⟨s, m⟩ := p
    simp only [assignGroupIds]
    cases hag : addGroupId g0 (finsetAscList s) out with
    | error e =>
      constructor
      · rintro ⟨out', h⟩; cases h
      · intro hall
        exfalso
        have hs : ∀ i ∈ finsetAscList s, (pyResolveIndex out.length i).isSome :=
          fun i hi => hall (s, m) (List.mem_cons_self _ _) i
            ((mem_finsetAscList s i).mp hi)
        rcases (addGroupId_ok_iff g0 (finsetAscList s) out).mpr hs with ⟨o, ho⟩
        rw [hag] at ho
        cases ho
    | ok out₁ =>
      have hs : ∀ i ∈ finsetAscList s, (pyResolveIndex out.length i).isSome :=
        (addGroupId_ok_iff g0 (finsetAscList s) out).mp ⟨out₁, hag⟩
      rw [ih, addGroupId_length _ _ _ _ hag]
      constructor
      · intro hrest p hp i hi
        rcases List.mem_cons.mp hp with rfl | hp
        · exact hs i ((mem_finsetAscList s i).mpr hi)
        · exact hrest p hp i hi
      · intro hall p hp i hi
        exact hall p (List.mem_cons_of_mem _ hp) i hi

theorem mem_assignGroupIds (g0 : ℕ) (groups : List (Finset ℤ × ℤ))
    (out out' : List (Finset ℕ))
    (h : assignGroupIds g0 groups out = .ok out') (k a : ℕ) :
    a ∈ out'.getD k ∅ ↔ a ∈ out.getD k ∅ ∨
      ∃ t, t < groups.length ∧ a = g0 + t ∧
        ∃ i ∈ (groups.getD t (∅, 0)).1, pyResolveIndex out.length i = some k := by
  induction groups generalizing g0 out with
  | nil =>
    simp only [assignGroupIds] at h
    injection h with h
    subst h
    simp
  | cons p rest ih =>
    obtain ⟨s, m⟩ := p
    simp only [assignGroupIds] at h
    cases hag : addGroupId g0 (finsetAscList s) out with
    | error e => rw [hag] at h; cases h
    | ok out₁ =>
      rw [hag] at h
      rw [ih _ _ h, addGroupId_length _ _ _ _ hag,
        mem_addGroupId _ _ _ _ hag k a]
      constructor
      · rintro ((ha | ⟨heq, i, hi, hres⟩) | ⟨t, ht, heq, i, hi, hres⟩)
        · exact Or.inl ha
        · exact Or.inr ⟨0, Nat.succ_pos _, by omega,
            i, by simpa using (mem_finsetAscList s i).mp hi, hres⟩
        · exact Or.inr ⟨t + 1, Nat.succ_lt_succ ht, by omega,
            i, by simpa using hi, hres⟩
      · rintro (ha | ⟨t, ht, hat, i, hi, hres⟩)
        · exact Or.inl (Or.inl ha)
        · cases t with
          | zero =>
            refine Or.inl (Or.inr ⟨by omega, i, ?_, hres⟩)
            exact (mem_finsetAscList s i).mpr (by simpa using hi)
          | succ t =>
            refine Or.inr ⟨t, ?_, by omega, i, by simpa using hi, hres⟩
            simp only [List.length_cons] at ht
            omega

/-- C3: group IDs start at 1 and follow the ascending order of the minimum
covered token index: of two collected membership sets, the one with the
strictly smaller minimum receives the strictly smaller group ID. -/
theorem groupId_lt_of_min_lt (ranges : List (List (ℤ × ℤ)))
    (p q : Finset ℤ × ℤ)
    (hp : p ∈ collectMweSets ranges) (hq : q ∈ collectMweSets ranges)
    (hlt : p.2 < q.2) :
    1 ≤ groupId ranges p ∧ groupId ranges p < groupId ranges q := by
  constructor
  · exact Nat.le_add_left 1 _
  · have hsp : p ∈ sortByMin (collectMweSets ranges) :=
      (sortByMin_perm _).mem_iff.mpr hp
    have hsq : q ∈ sortByMin (collectMweSets ranges) :=
      (sortByMin_perm _).mem_iff.mpr hq
    exact Nat.succ_lt_succ
      (idxOfP_lt_of_key_lt _ (sortByMin_pairwise _) p q hsp hsq hlt)

/-- Witness for C3: with token 0 covering indexes 0-1 and token 2 covering
indexes 2-3, the set with minimum 0 receives a smaller ID than the set with
minimum 2. -/
theorem groupId_lt_of_min_lt_witness :
    1 ≤ groupId [[(0, 2)], [], [(2, 4)], []] ({0, 1}, 0) ∧
      groupId [[(0, 2)], [], [(2, 4)], []] ({0, 1}, 0) <
        groupId [[(0, 2)], [], [(2, 4)], []] ({2, 3}, 2) :=
  groupId_lt_of_min_lt [[(0, 2)], [], [(2, 4)], []] ({0, 1}, 0) ({2, 3}, 2)
    (by decide) (by decide) (by decide)

theorem getD_replicate_empty (n k : ℕ) :
    (List.replicate n (∅ : Finset ℕ)).getD k ∅ = ∅ := by
  induction n generalizing k with
  | zero => rfl
  | succ n ih =>
    cases k with
    | zero => rfl
    | succ k => simp [List.replicate, ih k]

/-- C4 as stated fails on the code: token 1's own membership set from its
sole range (1, 2) has at most one element, yet its resolved entry is {1}
rather than the empty set, because token 0's multi-element membership set
covers index 1. -/
theorem singleton_token_nonempty_entry :
    (get_all_mwe_token_indexes [(1, 2)]).card ≤ 1 ∧
      resolveMwe [[(0, 2)], [(1, 2)]] = .ok [{1}, {1}] ∧
      ({1} : Finset ℕ) ≠ ∅ :=
  ⟨by decide, by rfl, by decide⟩

/-- C4 amended: a token's own empty or singleton membership set contributes
no group (every collected set has more than one element), and a token's
resolved entry is empty precisely when no collected multi-element membership
set covers its position; a token whose index no multi-element set covers
therefore resolves to the empty set. -/
theorem token_entry_empty_iff (ranges : List (List (ℤ × ℤ)))
    (out : List (Finset ℕ)) (h : resolveMwe ranges = .ok out) (k : ℕ) :
    (∀ p ∈ collectMweSets ranges, 1 < p.1.card) ∧
    (out.getD k ∅ = ∅ ↔
      ∀ p ∈ collectMweSets ranges, ∀ i ∈ p.1,
        pyResolveIndex ranges.length i ≠ some k) := by
  constructor
  · rintro ⟨S, m⟩ hp
    exact ((mem_collectFromExpansions _ _ _).mp hp).2.1
  · have hmem := mem_assignGroupIds 1 (sortByMin (collectMweSets ranges)) _ out h k
    simp only [getD_replicate_empty, List.length_replicate,
      Finset.not_mem_empty, false_or] at hmem
    constructor
    · intro hemp p hp i hi hres
      rcases List.mem_iff_get.mp ((sortByMin_perm _).mem_iff.mpr hp) with ⟨⟨t, ht⟩, hget⟩
      have : (1 + t) ∈ out.getD k ∅ := by
        refine (hmem (1 + t)).mpr ⟨t, ht, rfl, i, ?_, hres⟩
        rw [List.getD_eq_getElem _ _ ht]
        rw [List.get_eq_getElem] at hget
        rw [hget]
        exact hi
      rw [hemp] at this
      exact Finset.not_mem_empty _ this
    · intro hnone
      refine Finset.eq_empty_iff_forall_not_mem.mpr (fun a ha => ?_)
      rcases (hmem a).mp ha with ⟨t, ht, rfl, i, hi, hres⟩
      have hpmem : (sortByMin (collectMweSets ranges)).getD t (∅, 0) ∈
          collectMweSets ranges := by
        refine (sortByMin_perm _).mem_iff.mp ?_
        rw [List.getD_eq_getElem _ _ ht]
        exact List.getElem_mem _
      exact hnone _ hpmem i hi hres

/-- Witness for C4 amended, at the counterexample input: the collected set
covering indexes 0 and 1 is multi-element, and token 1's entry is nonempty
exactly because that set covers index 1. -/
theorem token_entry_empty_iff_witness :
    1 < ({0, 1} : Finset ℤ).card ∧
      ¬ (([{1}, {1}] : List (Finset ℕ)).getD 1 ∅ = ∅) :=
  ⟨(token_entry_empty_iff [[(0, 2)], [(1, 2)]] [{1}, {1}] (by rfl) 1).1
      ({0, 1}, 0) (by decide),
   fun hemp =>
     ((token_entry_empty_iff [[(0, 2)], [(1, 2)]] [{1}, {1}] (by rfl) 1).2.mp hemp
       ({0, 1}, 0) (by decide) 1 (by decide)) (by decide)⟩

theorem set_get_self {α : Type} : ∀ (l : List α) (n : ℕ) (h : n < l.length),
    l.set n (l.get ⟨n, h⟩) = l
  | _ :: _, 0, _ => rfl
  | a :: l, n + 1, h =>
    congrArg (a :: ·) (set_get_self l n (Nat.lt_of_succ_lt_succ h))

/-- C5: within one unit the group ID is a function of the membership set
alone: the collection holds at most one entry per membership set (so one set
never receives two IDs), and replacing one token's range-list encoding by
another token's encoding with the same expansion leaves the resolver output
unchanged. -/
theorem same_membership_same_group (ranges : List (List (ℤ × ℤ)))
    (i j : ℕ) (hi : i < ranges.length) (hj : j < ranges.length)
    (hexp : get_all_mwe_token_indexes (ranges.get ⟨i, hi⟩) =
      get_all_mwe_token_indexes (ranges.get ⟨j, hj⟩)) :
    (∀ p q, p ∈ collectMweSets ranges → q ∈ collectMweSets ranges →
      p.1 = q.1 → p = q) ∧
    resolveMwe (ranges.set j (ranges.get ⟨i, hi⟩)) = resolveMwe ranges := by
  constructor
  · rintro ⟨S1, m1⟩ ⟨S2, m2⟩ hp hq heq
    obtain ⟨_, _, hm1⟩ := (mem_collectFromExpansions _ _ _).mp hp
    obtain ⟨_, _, hm2⟩ := (mem_collectFromExpansions _ _ _).mp hq
    cases heq
    rw [Prod.mk.injEq]
    exact ⟨rfl, by rw [hm1, hm2]⟩
  · have hmap : (ranges.set j (ranges.get ⟨i, hi⟩)).map get_all_mwe_token_indexes =
        ranges.map get_all_mwe_token_indexes := by
      rw [List.map_set, hexp]
      have : get_all_mwe_token_indexes (ranges.get ⟨j, hj⟩) =
          (ranges.map get_all_mwe_token_indexes).get
            ⟨j, by rw [List.length_map]; exact hj⟩ := by
        simp
      rw [this, set_get_self]
    unfold resolveMwe collectMweSets
    rw [hmap, List.length_set]

/-- Witness for C5: the encodings with one range (0, 2) and with two ranges
(0, 1), (1, 2) expand to the same membership set, and substituting one for
the other does not change the output. -/
theorem same_membership_same_group_witness :
    resolveMwe (([[(0, 2)], [(0, 1), (1, 2)]] : List (List (ℤ × ℤ))).set 1
        (([[(0, 2)], [(0, 1), (1, 2)]] : List (List (ℤ × ℤ))).get ⟨0, by decide⟩)) =
      resolveMwe [[(0, 2)], [(0, 1), (1, 2)]] :=
  (same_membership_same_group [[(0, 2)], [(0, 1), (1, 2)]] 0 1 (by decide)
    (by decide) (by decide)).2

theorem sortByMin_eq_of_perm (c1 c2 : List (Finset ℤ × ℤ))
    (hperm : List.Perm c1 c2) (hd : DistinctMins c1) :
    sortByMin c1 = sortByMin c2 := by
  have hp : List.Perm (sortByMin c1) (sortByMin c2) :=
    (sortByMin_perm c1).trans (hperm.trans (sortByMin_perm c2).symm)
  have hnd1 : ((sortByMin c1).map Prod.snd).Nodup :=
    (((sortByMin_perm c1).map Prod.snd).nodup_iff).mpr hd
  have hnd2 : ((sortByMin c2).map Prod.snd).Nodup :=
    ((hp.map Prod.snd).nodup_iff).mp hnd1
  have hs1 : (sortByMin c1).Pairwise (fun a b => a.2 < b.2) :=
    ((sortByMin_pairwise c1).and (List.pairwise_map.mp hnd1)).imp
      (fun hab => lt_of_le_of_ne hab.1 hab.2)
  have hs2 : (sortByMin c2).Pairwise (fun a b => a.2 < b.2) :=
    ((sortByMin_pairwise c2).and (List.pairwise_map.mp hnd2)).imp
      (fun hab => lt_of_le_of_ne hab.1 hab.2)
  haveI : IsAntisymm (Finset ℤ × ℤ) (fun a b => a.2 < b.2) :=
    ⟨fun _ _ h1 h2 => absurd h2 (not_lt.mpr (le_of_lt h1))⟩
  exact List.eq_of_perm_of_sorted hp hs1 hs2

/-- C6 fails as stated for cross-token rearrangements with tied minima:
these two inputs carry the same collection of membership sets (the sets
covering indexes 0-1 and 0-2, both with minimum 0), but swapping which token
contributes which range list flips the incidental enumeration order of the
collection, and group IDs 1 and 2 swap in the output. -/
theorem rearrangement_changes_output :
    (collectMweSets [[(0, 2)], [(0, 1), (2, 3)], []]).toFinset =
      (collectMweSets [[(0, 1), (2, 3)], [(0, 2)], []]).toFinset ∧
    ([[(0, 2)], [(0, 1), (2, 3)], []] : List (List (ℤ × ℤ))).length =
      ([[(0, 1), (2, 3)], [(0, 2)], []] : List (List (ℤ × ℤ))).length ∧
    resolveMwe [[(0, 2)], [(0, 1), (2, 3)], []] ≠
      resolveMwe [[(0, 1), (2, 3)], [(0, 2)], []] :=
  ⟨by decide, rfl, by decide⟩

/-- C6 amended: the resolver output is invariant under any re-encoding that
preserves every token's membership set (in particular reordering the ranges
inside a token's list), and under rearrangements that permute the collected
membership sets provided their minima are pairwise distinct; with tied
minima the numbering follows the incidental enumeration order of the
collection. -/
theorem resolveMwe_encoding_invariance (r1 r2 : List (List (ℤ × ℤ))) :
    (r1.map get_all_mwe_token_indexes = r2.map get_all_mwe_token_indexes →
      resolveMwe r1 = resolveMwe r2) ∧
    (r1.length = r2.length →
      List.Perm (collectMweSets r1) (collectMweSets r2) →
      DistinctMins (collectMweSets r1) →
      resolveMwe r1 = resolveMwe r2) := by
  constructor
  · intro hmap
    have hlen : r1.length = r2.length := by
      have := congrArg List.length hmap
      simpa using this
    unfold resolveMwe collectMweSets
    rw [hmap, hlen]
  · intro hlen hperm hd
    unfold resolveMwe resolveWith
    rw [sortByMin_eq_of_perm _ _ hperm hd, hlen]

/-- Witness for C6 at concrete inputs: reordering ranges inside token 0
keeps the output, and swapping the contributions of tokens 0 and 1 keeps the
output when the two membership sets have distinct minima 0 and 2. -/
theorem resolveMwe_encoding_invariance_witness :
    resolveMwe [[(0, 1), (1, 2)]] = resolveMwe [[(1, 2), (0, 1)]] ∧
      resolveMwe [[(0, 2)], [(2, 4)], [], []] =
        resolveMwe [[(2, 4)], [(0, 2)], [], []] :=
  ⟨(resolveMwe_encoding_invariance [[(0, 1), (1, 2)]] [[(1, 2), (0, 1)]]).1
      (by decide),
   (resolveMwe_encoding_invariance [[(0, 2)], [(2, 4)], [], []]
      [[(2, 4)], [(0, 2)], [], []]).2 rfl (by decide) (by unfold DistinctMins; decide)⟩

/-- C7 fails on its tie clause: with two distinct membership sets tied at
minimum index 0, the group assignment depends on the enumeration order of
the membership-set collection (a Python set, whose iteration order is not
part of the language contract): enumerating the collection of
[[(0,2)],[(0,1),(2,3)],[]] in the reverse order swaps group IDs 1 and 2 in
the output, so the record is not a function of the inputs alone. -/
theorem tie_break_depends_on_enumeration :
    List.Perm [(({0, 2} : Finset ℤ), (0 : ℤ)), ({0, 1}, 0)]
      (collectMweSets [[(0, 2)], [(0, 1), (2, 3)], []]) ∧
    resolveWith [(({0, 2} : Finset ℤ), (0 : ℤ)), ({0, 1}, 0)] 3 ≠
      resolveWith (collectMweSets [[(0, 2)], [(0, 1), (2, 3)], []]) 3 :=
  ⟨by decide, by decide⟩

/-- C7 amended: per-unit processing is deterministic once the enumeration
order of the membership-set collection is fixed, and whenever the collected
membership sets have pairwise distinct minima the output does not depend on
that order at all: any two enumerations of the collection give identical
records. Only with tied minima does the assignment depend on the incidental
enumeration order. -/
theorem resolveWith_enum_independent (ranges : List (List (ℤ × ℤ)))
    (c1 c2 : List (Finset ℤ × ℤ))
    (h1 : List.Perm c1 (collectMweSets ranges))
    (h2 : List.Perm c2 (collectMweSets ranges))
    (hd : DistinctMins (collectMweSets ranges)) :
    resolveWith c1 ranges.length = resolveWith c2 ranges.length := by
  have hd1 : DistinctMins c1 := ((h1.map Prod.snd).nodup_iff).mpr hd
  unfold resolveWith
  rw [sortByMin_eq_of_perm c1 c2 (h1.trans h2.symm) hd1]

/-- Witness for C7 amended: with membership sets at distinct minima 0 and 2,
the first-insertion enumeration and its reverse give the same output. -/
theorem resolveWith_enum_independent_witness :
    resolveWith [(({0, 1} : Finset ℤ), (0 : ℤ)), ({2, 3}, 2)] 4 =
      resolveWith [(({2, 3} : Finset ℤ), (2 : ℤ)), ({0, 1}, 0)] 4 :=
  resolveWith_enum_independent [[(0, 2)], [(2, 4)], [], []]
    [({0, 1}, 0), ({2, 3}, 2)] [({2, 3}, 2), ({0, 1}, 0)]
    (by decide) (by decide) (by unfold DistinctMins; decide)

theorem pyResolveIndex_isSome_iff (n : ℕ) (i : ℤ) :
    (pyResolveIndex n i).isSome ↔ (-(n : ℤ) ≤ i ∧ i < (n : ℤ)) := by
  simp only [pyResolveIndex]
  split_ifs <;> simp <;> omega

theorem pyResolveIndex_neg (n : ℕ) (i : ℤ) (h1 : -(n : ℤ) ≤ i) (h2 : i < 0) :
    pyResolveIndex n i = some (i + (n : ℤ)).toNat := by
  simp only [pyResolveIndex]
  rw [if_neg (by omega), if_pos (by omega)]

theorem idxOfP_getD (l : List (Finset ℤ × ℤ)) (x : Finset ℤ × ℤ) (hx : x ∈ l)
    (d : Finset ℤ × ℤ) :
    idxOfP x l < l.length ∧ l.getD (idxOfP x l) d = x := by
  induction l with
  | nil => cases hx
  | cons y ys ih =>
    by_cases hyx : y = x
    · subst hyx
      simp [idxOfP]
    · rcases List.mem_cons.mp hx with rfl | hx
      · exact absurd rfl hyx
      · obtain ⟨h1, h2⟩ := ih hx
        simp only [idxOfP, if_neg hyx, List.length_cons, List.getD_cons_succ]
        exact ⟨Nat.succ_lt_succ h1, h2⟩

/-- C10 fails on its negative-index clause: a membership set reaching
indexes below -N does not wrap silently around the output list; the
assignment step raises IndexError for it just as it does for indexes ≥ N.
Token 0's sole range covers indexes -5 and -4 while the unit has one
token. -/
theorem negative_index_errors :
    resolveMwe [[(-5, -3)]] = .error "IndexError: list index out of range" := by
  rfl

/-- C10 amended: the ID-assignment step succeeds exactly when every index
covered by a collected membership set lies in the window from -N to N-1 (so
in particular it never errors under the claim's precondition that all
indexes lie in the range 0 to N-1); a covered index in the window from -N to
-1 silently adds the group ID to the token counted from the end of the
sequence; and any covered index outside the window, below -N as well as at N
or above, makes the step fail with an IndexError. -/
theorem resolveMwe_window (ranges : List (List (ℤ × ℤ))) :
    ((∃ out, resolveMwe ranges = .ok out) ↔
      ∀ p ∈ collectMweSets ranges, ∀ i ∈ p.1,
        -(ranges.length : ℤ) ≤ i ∧ i < (ranges.length : ℤ)) ∧
    (∀ out, resolveMwe ranges = .ok out →
      ∀ p ∈ collectMweSets ranges, ∀ i ∈ p.1, i < 0 →
        groupId ranges p ∈ out.getD (i + (ranges.length : ℤ)).toNat ∅) ∧
    ((∃ p ∈ collectMweSets ranges, ∃ i ∈ p.1,
        i < -(ranges.length : ℤ) ∨ (ranges.length : ℤ) ≤ i) →
      ∃ msg, resolveMwe ranges = .error msg) := by
  have hiff : (∃ out, resolveMwe ranges = .ok out) ↔
      ∀ p ∈ collectMweSets ranges, ∀ i ∈ p.1,
        -(ranges.length : ℤ) ≤ i ∧ i < (ranges.length : ℤ) := by
    unfold resolveMwe resolveWith
    rw [assignGroupIds_ok_iff]
    simp only [List.length_replicate]
    constructor
    · intro hall p hp i hi
      exact (pyResolveIndex_isSome_iff _ _).mp
        (hall p ((sortByMin_perm _).mem_iff.mpr hp) i hi)
    · intro hall p hp i hi
      exact (pyResolveIndex_isSome_iff _ _).mpr
        (hall p ((sortByMin_perm _).mem_iff.mp hp) i hi)
  refine ⟨hiff, ?_, ?_⟩
  · intro out h p hp i hi hineg
    have hwin := hiff.mp ⟨out, h⟩ p hp i hi
    have hsortmem : p ∈ sortByMin (collectMweSets ranges) :=
      (sortByMin_perm _).mem_iff.mpr hp
    obtain ⟨ht, hgetD⟩ := idxOfP_getD _ p hsortmem (∅, 0)
    refine (mem_assignGroupIds 1 _ _ out h ((i + (ranges.length : ℤ)).toNat)
      (groupId ranges p)).mpr (Or.inr ⟨idxOfP p (sortByMin (collectMweSets ranges)),
        ht, by unfold groupId; omega, i, ?_, ?_⟩)
    · rw [hgetD]; exact hi
    · rw [List.length_replicate]
      exact pyResolveIndex_neg _ i hwin.1 hineg
  · rintro ⟨p, hp, i, hi, hout⟩
    cases hres : resolveMwe ranges with
    | ok out =>
      have hwin := hiff.mp ⟨out, hres⟩ p hp i hi
      omega
    | error msg => exact ⟨msg, rfl⟩

/-- Witness for C10 amended at concrete inputs: a membership set covering
indexes -2 and -1 of a two-token unit resolves successfully and both wrapped
tokens carry group ID 1. -/
theorem resolveMwe_window_witness :
    groupId [[(-2, 0)], []] ({-2, -1}, -2) ∈
      (([{1}, {1}] : List (Finset ℕ)).getD ((-2 : ℤ) + 2).toNat ∅) :=
  (resolveMwe_window [[(-2, 0)], []]).2.1 [{1}, {1}] (by rfl)
    ({-2, -1}, -2) (by decide) (-2) (by decide) (by decide)

theorem exceptBind_ok {α β : Type} (x : Except String α) (f : α → Except String β)
    (b : β) (h : (x >>= f) = .ok b) : ∃ a, x = .ok a ∧ f a = .ok b := by
  cases x with
  | ok a => exact ⟨a, rfl, h⟩
  | error e => simp [Bind.bind, Except.bind] at h

theorem getStrAttribute_ok (tok : PyToken) (nm : String) (s : String)
    (h : getStrAttribute tok nm = .ok s) :
    get_spacy_attribute tok nm .str = .ok (.str s) := by
  unfold getStrAttribute at h
  cases hg : get_spacy_attribute tok nm .str with
  | error e => rw [hg] at h; cases h
  | ok v =>
    rw [hg] at h
    cases v with
    | str s2 => cases h; rfl
    | int n => cases h
    | list l => cases h
    | tuple a b => cases h

theorem getListAttribute_ok (tok : PyToken) (nm : String) (l : List PyVal)
    (h : getListAttribute tok nm = .ok l) :
    get_spacy_attribute tok nm .list = .ok (.list l) := by
  unfold getListAttribute at h
  cases hg : get_spacy_attribute tok nm .list with
  | error e => rw [hg] at h; cases h
  | ok v =>
    rw [hg] at h
    cases v with
    | str s2 => cases h
    | int n => cases h
    | list l2 => cases h; rfl
    | tuple a b => cases h

theorem getOptionalStr_ok (tok : PyToken) (ext : Option String)
    (v : Option String) (h : getOptionalStr tok ext = .ok v) :
    ∀ nm, ext = some nm → ∃ s, get_spacy_attribute tok nm .str = .ok s := by
  intro nm hnm
  subst hnm
  simp only [getOptionalStr] at h
  cases hgs : getStrAttribute tok nm with
  | error e => rw [hgs] at h; cases h
  | ok s => exact ⟨.str s, getStrAttribute_ok _ _ _ hgs⟩

theorem processToken_ok_attrs (cfg : TagTextConfig) (tok : PyToken)
    (r : TokenResult) (h : processToken cfg tok = .ok r) :
    AttrsWellTyped cfg tok := by
  unfold processToken at h
  obtain ⟨token_text, h1, h⟩ := exceptBind_ok _ _ _ h
  obtain ⟨lemmaVal, h2, h⟩ := exceptBind_ok _ _ _ h
  obtain ⟨posVal, h3, h⟩ := exceptBind_ok _ _ _ h
  obtain ⟨usas_raw, h4, h⟩ := exceptBind_ok _ _ _ h
  obtain ⟨usas_strs, h5, h⟩ := exceptBind_ok _ _ _ h
  obtain ⟨groups, h6, h⟩ := exceptBind_ok _ _ _ h
  obtain ⟨mwe_raw, h7, h⟩ := exceptBind_ok _ _ _ h
  exact ⟨⟨.str token_text, getStrAttribute_ok _ _ _ h1⟩,
    getOptionalStr_ok _ _ _ h2, getOptionalStr_ok _ _ _ h3,
    ⟨.list usas_raw, getListAttribute_ok _ _ _ h4⟩,
    ⟨.list mwe_raw, getListAttribute_ok _ _ _ h7⟩⟩

theorem processTokens_ok_attrs (cfg : TagTextConfig) (toks : List PyToken)
    (rs : List TokenResult) (h : processTokens cfg toks = .ok rs) :
    ∀ tok ∈ toks, AttrsWellTyped cfg tok := by
  induction toks generalizing rs with
  | nil => intro tok htok; cases htok
  | cons t ts ih =>
    intro tok htok
    simp only [processTokens] at h
    cases hpt : processToken cfg t with
    | error e => rw [hpt] at h; cases h
    | ok r =>
      rw [hpt] at h
      cases hpts : processTokens cfg ts with
      | error e => rw [hpts] at h; cases h
      | ok rs2 =>
        rw [hpts] at h
        rcases List.mem_cons.mp htok with rfl | htok
        · exact processToken_ok_attrs cfg tok r hpt
        · exact ih rs2 hpts tok htok

/-- C8: a retrieved attribute value failing its isinstance check makes
`get_spacy_attribute` raise the validation error that names the attribute,
the expected type and the actual type; and per-unit processing produces a
record only when every configured attribute of every token is present and
well-typed, so a type mismatch on any token leaves no TaggedText for that
unit. -/
theorem attribute_type_mismatch (tok : PyToken) (attribute_name : String)
    (expected : PyType) (v : PyVal)
    (hv : attributeLookup tok attribute_name = some v)
    (hty : v.typeOf ≠ expected) :
    get_spacy_attribute tok attribute_name expected =
      .error (typeErrorMsg (strippedName attribute_name) expected v.typeOf) ∧
    (∀ (cfg : TagTextConfig) (tagger : String → List PyToken) (text : String)
      (r : TaggedText), _process_text cfg tagger text = .ok r →
      ∀ t ∈ tagger text, AttrsWellTyped cfg t) := by
  constructor
  · unfold get_spacy_attribute
    rw [hv]
    exact if_neg hty
  · intro cfg tagger text r h t ht
    unfold _process_text at h
    cases hpt : processTokens cfg (tagger text) with
    | error e => rw [hpt] at h; cases h
    | ok results => exact processTokens_ok_attrs cfg _ results hpt t ht

/-- Witness for C8: the wrong-typed USAS attribute of the test suite (a
string instead of a list) produces exactly the descriptive message, and a
well-typed one-token unit processes into a record whose token attributes are
all well-typed. -/
theorem attribute_type_mismatch_witness :
    get_spacy_attribute ⟨[], [("pymusas_tags", PyVal.str "Wrong Type")]⟩
        "_.pymusas_tags" .list =
      .error "Expected pymusas_tags to be of type <class list>, but got <class str>" ∧
    AttrsWellTyped { } ⟨[("text", PyVal.str "w")],
      [("pymusas_tags", PyVal.list []), ("pymusas_mwe_indexes", PyVal.list [])]⟩ := by
  constructor
  · exact (attribute_type_mismatch
      ⟨[], [("pymusas_tags", PyVal.str "Wrong Type")]⟩ "_.pymusas_tags" .list
      (.str "Wrong Type") (by rfl) (by decide)).1
  · exact (attribute_type_mismatch
      ⟨[], [("pymusas_tags", PyVal.str "Wrong Type")]⟩ "_.pymusas_tags" .list
      (.str "Wrong Type") (by rfl) (by decide)).2 { }
      (fun _ => [⟨[("text", PyVal.str "w")],
        [("pymusas_tags", PyVal.list []), ("pymusas_mwe_indexes", PyVal.list [])]⟩])
      "t" ⟨"t", ["w"], none, none, [[]], [∅]⟩ (by rfl) _
      (List.mem_cons_self _ _)

/-- C9: without a splitter the whole text is one unit and exactly one result
is yielded; with a splitter there is exactly one result per sentence, in the
splitter output order, the k-th result being the processing of the k-th
sentence. -/
theorem tag_text_units (cfg : TagTextConfig) (tagger : String → List PyToken)
    (text : String) :
    tag_text cfg tagger none text = [_process_text cfg tagger text] ∧
    (∀ splitter : String → List String,
      (tag_text cfg tagger (some splitter) text).length =
        (splitter text).length ∧
      ∀ k, k < (splitter text).length →
        (tag_text cfg tagger (some splitter) text).getD k (.error "") =
          _process_text cfg tagger ((splitter text).getD k "")) := by
  refine ⟨rfl, fun splitter => ⟨by simp [tag_text], fun k hk => ?_⟩⟩
  have hk2 : k < (tag_text cfg tagger (some splitter) text).length := by
    simpa [tag_text] using hk
  rw [List.getD_eq_getElem _ _ hk2, List.getD_eq_getElem _ _ hk]
  simp [tag_text]

/-- Witness for C9: a splitter yielding two sentences produces the second
unit at position 1. -/
theorem tag_text_units_witness :
    (tag_text { } (fun _ => []) (some (fun t => [t, t])) "ab").getD 1 (.error "") =
      _process_text { } (fun _ => []) "ab" :=
  ((tag_text_units { } (fun _ => []) "ab").2 (fun t => [t, t])).2 1 (by decide)
